import Mathlib

/-
Shallow embedding of the newsfeed polling-and-merge engine.

Source files modelled:
  src/newsfeed/fetcher.py   (fetch_and_parse, fetch_category)
  src/newsfeed/app.py       (the stream-feeds dedup filter, ingest, rebuild of the all view)
  src/newsfeed/cache.py     (get, put)
  src/newsfeed/utils.py     (truncate)

Conventions: Python strings are Lean String values (character lists where slicing
matters), dict entries with possibly missing keys are Option fields, the float
timestamps are abstracted to Nat seconds, and the external effectful collaborators
(HTTP transport, the feed XML parser, JSON serialisation, the date parser) enter as
explicit parameters or as constructors of an outcome type.
-/

/-- Article record as built by the fetcher: five string fields, all always present. -/
structure Article where
  title : String
  link : String
  description : String
  published : String
  source : String
deriving DecidableEq

/-- One parsed feed entry as feedparser exposes it: every field may be absent. -/
structure FeedEntry where
  title : Option String
  link : Option String
  summary : Option String
  description : Option String
  published : Option String
  updated : Option String
deriving DecidableEq

/-- Python truthiness fallback `x or y` for an optional string: a missing or empty
first operand falls through to the second. -/
def pyOrStr (x : Option String) (y : String) : String :=
  match x with
  | some s => if s = "" then y else s
  | none => y

/-- Entry extraction loop body of `_fetch_and_parse`: title, link and published
default to the empty string, the description prefers `summary` over `description`
and passes through the sanitizer, and the source name is attached. -/
def extract_entry (sanitize : String → String) (source_name : String) (e : FeedEntry) :
    Article :=
  { title := e.title.getD ""
    link := e.link.getD ""
    description := sanitize (pyOrStr e.summary (e.description.getD ""))
    published := e.published.getD ""
    source := source_name }

/-- Outcome of the HTTP GET inside `_fetch_and_parse`: a response with a status code
and the entries feedparser would produce from its body, or a transport failure. -/
inductive HttpOutcome where
  | response : Nat → List FeedEntry → HttpOutcome
  | transportError : HttpOutcome
  | timeout : HttpOutcome
deriving DecidableEq

/-- Success test of `raise_for_status`: 2xx status codes. -/
def is2xx (status : Nat) : Bool := decide (200 ≤ status) && decide (status < 300)

/-- Network path of `_fetch_and_parse`: transport errors, timeouts and non-2xx
statuses are caught and yield the empty list; a 2xx response is parsed entry by
entry. -/
def fetch_network (sanitize : String → String) (source_name : String)
    (outcome : HttpOutcome) : List Article :=
  match outcome with
  | HttpOutcome.transportError => []
  | HttpOutcome.timeout => []
  | HttpOutcome.response status entries =>
    if is2xx status then entries.map (extract_entry sanitize source_name) else []

/-- `_fetch_and_parse`: a fresh cache hit is returned verbatim, otherwise the
network path runs. The cache write-back only mutates the cache, not the returned
value, so it is not part of this embedding. -/
def fetch_and_parse (sanitize : String → String) (source_name : String)
    (use_cache : Bool) (cached : Option (List Article)) (outcome : HttpOutcome) :
    List Article :=
  if use_cache then
    match cached with
    | some entries => entries
    | none => fetch_network sanitize source_name outcome
  else fetch_network sanitize source_name outcome

/-- Failure shapes of the HTTP layer: transport error, timeout, or non-2xx status. -/
def isFailure (outcome : HttpOutcome) : Prop :=
  outcome = HttpOutcome.transportError ∨ outcome = HttpOutcome.timeout ∨
    ∃ status entries, outcome = HttpOutcome.response status entries ∧ is2xx status = false

/-- Lexicographic order on character lists, code point by code point, the way Python
compares strings. -/
def lexLe : List Char → List Char → Bool
  | [], _ => true
  | _ :: _, [] => false
  | a :: as, b :: bs => if a = b then lexLe as bs else decide (a < b)

/-- Sort relation of `fetch_category`: descending in the raw published string. -/
def pubGe (a b : Article) : Prop := lexLe b.published.data a.published.data = true

instance : DecidableRel pubGe :=
  fun a b => instDecidableEqBool (lexLe b.published.data a.published.data) true

/-- `fetch_category`: each source keeps at most `limit` entries, the kept entries are
concatenated in completion order and stably sorted descending by the raw published
string. The function is total: a failed source is the empty list and contributes
nothing. Python list.sort is a stable sort; it is modelled by `List.insertionSort`,
which is likewise stable, and the claims about this function use only sortedness and
multiset identity, which any stable sort model shares with it. -/
def fetch_category (results : List (List Article)) (limit : Nat) : List Article :=
  List.insertionSort pubGe ((results.map (fun entries => entries.take limit)).flatten)

/-- Modelled from the spec: `published_ts` is imported from `newsfeed.utils` by
`app.py` and exercised by the repository tests, but its definition is missing from
`utils.py`. Following the spec wording, a missing or unparsable timestamp parses to
epoch zero and parsing never raises; the date parser itself is abstracted as
`parse`, with `none` standing for an unparsable input. -/
def published_ts (parse : String → Option Nat) (published : Option String) : Nat :=
  match published with
  | none => 0
  | some s => (parse s).getD 0

/-- Ingest-time sort key of an article. -/
def sortKey (parse : String → Option Nat) (e : Article) : Nat :=
  published_ts parse (some e.published)

/-- Ingest-time sort relation: descending in the parsed publication timestamp. -/
def tsGe (parse : String → Option Nat) (a b : Article) : Prop :=
  sortKey parse b ≤ sortKey parse a

instance (parse : String → Option Nat) : DecidableRel (tsGe parse) :=
  fun a b => Nat.decLe (sortKey parse b) (sortKey parse a)

/-- The same relation on category-tagged articles, for the flattened view. -/
def tsGeP (parse : String → Option Nat) (a b : String × Article) : Prop :=
  sortKey parse b.2 ≤ sortKey parse a.2

instance (parse : String → Option Nat) : DecidableRel (tsGeP parse) :=
  fun a b => Nat.decLe (sortKey parse b.2) (sortKey parse a.2)

/-- Dedup and merge store: the global seen-link set and one collection per
category. -/
structure Store where
  seen_links : List String
  articles : String → List Article

/-- Batch filter of `_stream_feeds`: keep entries whose link is truthy (non-empty)
and not in the seen-link set. The set is only consulted, never updated, while the
filter runs. -/
def freshOf (seen : List String) (entries : List Article) : List Article :=
  entries.filter (fun e => decide (e.link ≠ "" ∧ e.link ∉ seen))

/-- `_ingest`: append the fresh batch to the category collection and stably re-sort
it descending by parsed timestamp. -/
def ingest (parse : String → Option Nat) (st : Store) (category : String)
    (fresh : List Article) : Store :=
  { st with articles := fun c =>
      if c = category then List.insertionSort (tsGe parse) (st.articles c ++ fresh)
      else st.articles c }

/-- One category step of `_stream_feeds`: filter the batch against the seen links;
when anything survives, record the surviving links and ingest, returning the new
store and the number of articles actually added. -/
def processCategory (parse : String → Option Nat) (st : Store) (category : String)
    (entries : List Article) : Store × Nat :=
  let fresh := freshOf st.seen_links entries
  if fresh.isEmpty then (st, 0)
  else
    (ingest parse
      { st with seen_links := st.seen_links ++ fresh.map (fun e => e.link) }
      category fresh,
     fresh.length)

/-- `_rebuild_all_table`: flatten every category collection, tagged with its
category, and re-sort descending by parsed timestamp. -/
def rebuild_all (parse : String → Option Nat) (st : Store) (cats : List String) :
    List (String × Article) :=
  List.insertionSort (tsGeP parse)
    ((cats.map (fun c => (st.articles c).map (fun e => (c, e)))).flatten)

namespace cache

/-- Ten minute default TTL of the cache module. -/
def DEFAULT_TTL : Nat := 600

/-- One cache file: its modification time and its readable content, with `none`
standing for an unreadable file. -/
structure CacheFile where
  mtime : Nat
  content : Option String
deriving DecidableEq

/-- The cache directory as a map from file path to file, newest write first. -/
def find (k : String) : List (String × CacheFile) → Option CacheFile
  | [] => none
  | (k2, f) :: rest => if k = k2 then some f else find k rest

/-- `cache.get`: an absent file or a stale modification time is a miss; an
unreadable or unparsable payload is caught and is likewise a miss. Path hashing is
abstracted as `path` and JSON decoding as `loads`. -/
def get (loads : String → Option (List Article)) (path : String → String)
    (st : List (String × CacheFile)) (url : String) (ttl : Nat) (now : Nat) :
    Option (List Article) :=
  match find (path url) st with
  | none => none
  | some f =>
    if ttl < now - f.mtime then none
    else
      match f.content with
      | none => none
      | some body => loads body

/-- `cache.put`: serialise the entries and overwrite the file for the URL, stamped
with the current time. JSON encoding is abstracted as `dumps`. -/
def put (dumps : List Article → String) (path : String → String)
    (st : List (String × CacheFile)) (url : String) (entries : List Article)
    (now : Nat) : List (String × CacheFile) :=
  (path url, CacheFile.mk now (some (dumps entries))) :: st

end cache

/-- Space character. -/
def spc : Char := Char.ofNat 32

/-- Tab character. -/
def tabc : Char := Char.ofNat 9

/-- Horizontal ellipsis character appended by `truncate`. -/
def hellip : Char := Char.ofNat 8230

/-- Whitespace test used to state the word-boundary claims. -/
def isWs (c : Char) : Bool :=
  c == spc || c == tabc || c == Char.ofNat 10 || c == Char.ofNat 13

/-- Python slice `s[:stop]` over a character list, including the negative-stop rule. -/
def pySliceTo (l : List Char) (stop : Int) : List Char :=
  if stop < 0 then l.take (l.length - (-stop).toNat) else l.take stop.toNat

/-- Python `s.rsplit(" ", 1)[0]`: everything before the last space, or the whole
list when no space occurs. -/
def rsplitHead (l : List Char) : List Char :=
  if spc ∈ l then (((l.reverse).dropWhile (fun c => c != spc)).drop 1).reverse else l

/-- `truncate`: text within the limit passes through unchanged; otherwise the first
`max_len - 1` characters are kept, the trailing word fragment after the last space is
dropped, and one ellipsis character is appended. -/
def truncate (text : List Char) (max_len : Int) : List Char :=
  if (text.length : Int) ≤ max_len then text
  else rsplitHead (pySliceTo text (max_len - 1)) ++ [hellip]

/-- Mid-word split: the truncated result ends in a word character that the original
text continues with another word character. -/
def splitsMidWord (text res : List Char) : Prop :=
  ∃ w, res = w ++ [hellip] ∧ w ≠ [] ∧
    Option.all (fun c => !isWs c) w.getLast? = true ∧
    Option.any (fun c => !isWs c) (text.get? w.length) = true

/-- Trivial date parser used to instantiate witnesses. -/
def parse0 : String → Option Nat := fun _ => none

/-- Identity sanitizer used to instantiate witnesses. -/
def sanitize0 : String → String := fun s => s

/-- Empty store: no seen links, every category collection empty. -/
def store0 : Store := Store.mk [] (fun _ => [])

/-- Concrete sample article with an older raw timestamp. -/
def artA : Article := Article.mk "A story" "http://a.example/1" "d" "2025-01-01" "SrcA"

/-- Concrete sample article with a newer raw timestamp. -/
def artB : Article := Article.mk "B story" "http://b.example/1" "d" "2025-01-02" "SrcB"

/-- Concrete sample article whose link is empty. -/
def artNoLink : Article := Article.mk "No link" "" "d" "2025-01-03" "SrcC"

/-- Store whose every category collection already holds the empty-link article. -/
def storeNoLink : Store := Store.mk [] (fun _ => [artNoLink])

/-- Feed entry carrying both a summary and a description. -/
def summaryEntry : FeedEntry :=
  FeedEntry.mk (some "T") (some "http://e.example/1") (some "Summary text")
    (some "Desc text") (some "P") none

/-- Feed entry carrying a description but no summary. -/
def descOnlyEntry : FeedEntry :=
  FeedEntry.mk (some "T") (some "http://e.example/2") none (some "Desc text")
    (some "P") none

/-- Feed entry carrying an updated timestamp but no published timestamp. -/
def updatedOnlyEntry : FeedEntry :=
  FeedEntry.mk (some "T") (some "http://e.example/3") (some "D") none none
    (some "Mon, 10 Feb 2025 12:00:00 GMT")

/-- Text of the truncate counterexample: a tab inside the cut window, the only space
beyond it. -/
def cexText : List Char := "aa\tbbbb cc".data

/-- Output front segment the code actually produces for the counterexample text. -/
def cexW : List Char := "aa\tbbb".data

theorem lexLe_total (a b : List Char) : (lexLe a b || lexLe b a) = true := by
  induction a generalizing b with
  | nil => simp [lexLe]
  | cons x xs ih =>
    cases b with
    | nil => simp [lexLe]
    | cons y ys =>
      by_cases h : x = y
      · subst h; simpa [lexLe] using ih ys
      · simp only [lexLe, if_neg h, if_neg (Ne.symm h)]
        rcases lt_or_gt_of_ne (show x ≠ y from h) with h2 | h2
        · simp [h2]
        · simp [h2, le_of_lt]

theorem lexLe_trans (a b c : List Char) (h1 : lexLe a b = true) (h2 : lexLe b c = true) :
    lexLe a c = true := by
  induction a generalizing b c with
  | nil => simp [lexLe]
  | cons x xs ih =>
    cases b with
    | nil => simp [lexLe] at h1
    | cons y ys =>
      cases c with
      | nil => simp [lexLe] at h2
      | cons z zs =>
        by_cases hxy : x = y
        · subst hxy
          simp only [lexLe, if_pos rfl] at h1
          by_cases hxz : x = z
          · subst hxz
            simp only [lexLe, if_pos rfl] at h2 ⊢
            exact ih ys zs h1 h2
          · simp only [lexLe, if_neg hxz] at h2 ⊢
            exact h2
        · simp only [lexLe, if_neg hxy] at h1
          have hxy2 : x < y := of_decide_eq_true h1
          by_cases hyz : y = z
          · subst hyz
            simp only [lexLe, if_neg hxy]
            exact decide_eq_true hxy2
          · simp only [lexLe, if_neg hyz] at h2
            have hyz2 : y < z := of_decide_eq_true h2
            have hxz2 : x < z := lt_trans hxy2 hyz2
            simp [lexLe, if_neg (ne_of_lt hxz2), hxz2]

/-- C4: `fetch_category` keeps only the first `limit` entries of each source,
returns a permutation of their concatenation sorted non-increasing in the raw
published string (a failed or empty source contributes nothing, and the function is
total, so the category fetch never fails), and on the 3-source scenario — one
timed-out source and two live one-article sources — returns exactly the two live
articles, sorted. -/
theorem fetch_category_spec (results : List (List Article)) (limit : Nat) :
    (fetch_category results limit).Perm
      ((results.map (fun entries => entries.take limit)).flatten) ∧
    List.Sorted pubGe (fetch_category results limit) ∧
    fetch_category
      [fetch_and_parse sanitize0 "bad" false none HttpOutcome.timeout, [artA], [artB]] 5
      = [artB, artA] := by
  refine ⟨List.perm_insertionSort _ _, ?_, by decide⟩
  haveI : IsTotal Article pubGe :=
    ⟨fun a b =>
      (Bool.or_eq_true _ _).mp (lexLe_total b.published.data a.published.data)⟩
  haveI : IsTrans Article pubGe :=
    ⟨fun a b c h1 h2 => lexLe_trans c.published.data b.published.data a.published.data h2 h1⟩
  exact List.sorted_insertionSort pubGe _

/-- C5: every transport error, timeout or non-2xx status makes the single-source
fetch return the empty list, on both the uncached path and the cache-miss path; the
failure is absorbed locally (the function is total by construction, so it is never
propagated as an exception). -/
theorem fetch_failure_returns_empty (sanitize : String → String) (source_name : String)
    (cached : Option (List Article)) (outcome : HttpOutcome) (h : isFailure outcome) :
    fetch_and_parse sanitize source_name false cached outcome = [] ∧
    fetch_and_parse sanitize source_name true none outcome = [] := by
  have hnet : fetch_network sanitize source_name outcome = [] := by
    rcases h with h | h | ⟨status, entries, h, h2⟩
    · subst h; rfl
    · subst h; rfl
    · subst h; simp [fetch_network, h2]
  exact ⟨by simpa [fetch_and_parse] using hnet, by simpa [fetch_and_parse] using hnet⟩

theorem fetch_failure_returns_empty_witness :
    fetch_and_parse sanitize0 "src" false none HttpOutcome.timeout = [] ∧
    fetch_and_parse sanitize0 "src" true none HttpOutcome.timeout = [] :=
  fetch_failure_returns_empty sanitize0 "src" none HttpOutcome.timeout
    (Or.inr (Or.inl rfl))

/-- C6: evaluation of the entry extraction. The description prefers the summary
field and falls back to the description field, and the source name is attached as
claimed — but an entry whose only timestamp is an `updated` field yields an empty
`published` value: the extraction reads just the `published` field and never falls
back to `updated`, contradicting the claim and the repository test
`test_falls_back_to_updated_field`. -/
theorem extract_entry_updated_fallback_missing :
    (extract_entry sanitize0 "Src" summaryEntry).description = "Summary text" ∧
    (extract_entry sanitize0 "Src" descOnlyEntry).description = "Desc text" ∧
    (extract_entry sanitize0 "Src" updatedOnlyEntry).source = "Src" ∧
    updatedOnlyEntry.updated = some "Mon, 10 Feb 2025 12:00:00 GMT" ∧
    (extract_entry sanitize0 "Src" updatedOnlyEntry).published = "" := by
  exact ⟨rfl, rfl, rfl, rfl, rfl⟩

theorem mem_freshOf {seen : List String} {batch : List Article} {e : Article} :
    e ∈ freshOf seen batch ↔ e ∈ batch ∧ e.link ≠ "" ∧ e.link ∉ seen := by
  simp [freshOf, List.mem_filter, and_assoc]

theorem freshOf_append_links (seen : List String) (batch : List Article) :
    freshOf (seen ++ (freshOf seen batch).map (fun e => e.link)) batch = [] := by
  rw [freshOf, List.filter_eq_nil_iff]
  intro e he
  simp only [decide_eq_true_eq]
  rintro ⟨hne, hnm⟩
  apply hnm
  rcases Decidable.em (e.link ∈ seen) with hs | hs
  · exact List.mem_append.mpr (Or.inl hs)
  · exact List.mem_append.mpr
      (Or.inr (List.mem_map.mpr ⟨e, mem_freshOf.mpr ⟨he, hne, hs⟩, rfl⟩))

theorem processCategory_of_empty (parse : String → Option Nat) (st : Store)
    (cat : String) (batch : List Article) (h : freshOf st.seen_links batch = []) :
    processCategory parse st cat batch = (st, 0) := by
  simp [processCategory, h]

theorem processCategory_of_nonempty (parse : String → Option Nat) (st : Store)
    (cat : String) (batch : List Article) (h : freshOf st.seen_links batch ≠ []) :
    processCategory parse st cat batch =
      (ingest parse
        { st with seen_links :=
            st.seen_links ++ (freshOf st.seen_links batch).map (fun e => e.link) }
        cat (freshOf st.seen_links batch),
       (freshOf st.seen_links batch).length) := by
  simp [processCategory, List.isEmpty_iff, h]

theorem ingest_seen_links (parse : String → Option Nat) (st : Store) (cat : String)
    (fresh : List Article) : (ingest parse st cat fresh).seen_links = st.seen_links :=
  rfl

theorem ingest_articles (parse : String → Option Nat) (st : Store) (cat : String)
    (fresh : List Article) (c : String) :
    (ingest parse st cat fresh).articles c =
      if c = cat then List.insertionSort (tsGe parse) (st.articles c ++ fresh)
      else st.articles c :=
  rfl

/-- C1: ingesting the same batch twice: the first pass puts every non-empty link of
the batch into the seen-link set, and the second pass filters every article out —
it adds zero articles and returns the store of the first pass unchanged, so the
final per-category collections equal those after a single ingest. -/
theorem dedup_idempotence (parse : String → Option Nat) (st : Store) (cat : String)
    (batch : List Article) :
    (∀ e ∈ batch, e.link ≠ "" →
      e.link ∈ (processCategory parse st cat batch).1.seen_links) ∧
    processCategory parse (processCategory parse st cat batch).1 cat batch
      = ((processCategory parse st cat batch).1, 0) := by
  by_cases hf : freshOf st.seen_links batch = []
  case pos =>
    have hres := processCategory_of_empty parse st cat batch hf
    constructor
    · intro e he hne
      rw [hres]
      have hmem := List.filter_eq_nil_iff.mp hf e he
      simp only [decide_eq_true_eq, not_and, not_not] at hmem
      exact hmem hne
    · rw [hres]
      exact processCategory_of_empty parse st cat batch hf
  case neg =>
    have hres := processCategory_of_nonempty parse st cat batch hf
    have hseen : (processCategory parse st cat batch).1.seen_links
        = st.seen_links ++ (freshOf st.seen_links batch).map (fun e => e.link) := by
      rw [hres]
      rfl
    constructor
    · intro e he hne
      rw [hseen]
      rcases Decidable.em (e.link ∈ st.seen_links) with hs | hs
      · exact List.mem_append.mpr (Or.inl hs)
      · exact List.mem_append.mpr
          (Or.inr (List.mem_map.mpr ⟨e, mem_freshOf.mpr ⟨he, hne, hs⟩, rfl⟩))
    · have h2 : freshOf (processCategory parse st cat batch).1.seen_links batch = [] := by
        rw [hseen]
        exact freshOf_append_links st.seen_links batch
      exact processCategory_of_empty parse _ cat batch h2

theorem dedup_idempotence_witness :
    artA.link ∈ (processCategory parse0 store0 "world" [artA]).1.seen_links ∧
    processCategory parse0 (processCategory parse0 store0 "world" [artA]).1 "world" [artA]
      = ((processCategory parse0 store0 "world" [artA]).1, 0) :=
  ⟨(dedup_idempotence parse0 store0 "world" [artA]).1 artA (by decide) (by decide),
   (dedup_idempotence parse0 store0 "world" [artA]).2⟩

/-- C9: the seen-link set only grows: one polling step over a category either leaves
it unchanged or appends the links of the fresh articles; no link is ever removed. -/
theorem seen_links_monotone (parse : String → Option Nat) (st : Store) (cat : String)
    (batch : List Article) (l : String) (h : l ∈ st.seen_links) :
    l ∈ (processCategory parse st cat batch).1.seen_links := by
  by_cases hf : freshOf st.seen_links batch = []
  · rw [processCategory_of_empty parse st cat batch hf]
    exact h
  · rw [processCategory_of_nonempty parse st cat batch hf]
    exact List.mem_append.mpr (Or.inl h)

theorem seen_links_monotone_witness :
    artA.link ∈ (processCategory parse0
      (Store.mk [artA.link] (fun _ => [])) "world" [artB]).1.seen_links :=
  seen_links_monotone parse0 (Store.mk [artA.link] (fun _ => [])) "world" [artB]
    artA.link (by decide)

/-- C2 (amended): an article with an empty link is never considered for dedup
because it is filtered out of the batch entirely: every article that survives the
freshness filter has a non-empty link, the seen-link set never gains an empty link,
and no empty-link article is ever added to any category collection — so empty-link
articles also never block any later article from being added. -/
theorem empty_link_articles_dropped (parse : String → Option Nat) (st : Store)
    (cat : String) (batch : List Article) :
    (∀ e ∈ freshOf st.seen_links batch, e.link ≠ "") ∧
    (∀ l ∈ (processCategory parse st cat batch).1.seen_links,
      l ∈ st.seen_links ∨ l ≠ "") ∧
    (∀ c e, e.link = "" → e ∈ (processCategory parse st cat batch).1.articles c →
      e ∈ st.articles c) := by
  refine ⟨fun e he => (mem_freshOf.mp he).2.1, ?_, ?_⟩
  · intro l hl
    by_cases hf : freshOf st.seen_links batch = []
    · rw [processCategory_of_empty parse st cat batch hf] at hl
      exact Or.inl hl
    · rw [processCategory_of_nonempty parse st cat batch hf] at hl
      have hl2 : l ∈ st.seen_links
          ++ (freshOf st.seen_links batch).map (fun e => e.link) := hl
      rcases List.mem_append.mp hl2 with h | h
      · exact Or.inl h
      · obtain ⟨e, hef, rfl⟩ := List.mem_map.mp h
        exact Or.inr (mem_freshOf.mp hef).2.1
  · intro c e helink hmem
    by_cases hf : freshOf st.seen_links batch = []
    · rw [processCategory_of_empty parse st cat batch hf] at hmem
      exact hmem
    · rw [processCategory_of_nonempty parse st cat batch hf] at hmem
      have hmem2 : e ∈ (if c = cat then
          List.insertionSort (tsGe parse) (st.articles c ++ freshOf st.seen_links batch)
          else st.articles c) := hmem
      by_cases hc : c = cat
      · rw [if_pos hc] at hmem2
        have hm3 := (List.perm_insertionSort (tsGe parse)
          (st.articles c ++ freshOf st.seen_links batch)).mem_iff.mp hmem2
        rcases List.mem_append.mp hm3 with h | h
        · exact h
        · exact absurd helink (mem_freshOf.mp h).2.1
      · rw [if_neg hc] at hmem2
        exact hmem2

theorem empty_link_articles_dropped_witness :
    artB.link ≠ "" ∧ artNoLink ∈ storeNoLink.articles "world" :=
  ⟨(empty_link_articles_dropped parse0 storeNoLink "world" [artB]).1 artB (by decide),
   (empty_link_articles_dropped parse0 storeNoLink "world" [artB]).2.2 "world" artNoLink
     rfl (by decide)⟩

/-- C2 counterexample: a batch holding one article with an empty link is ingested
into the empty store, and the article is NOT added — the category collection stays
empty and the added count is 0 — refuting the claim that an empty-link article is
always treated as new and added to the category collection. -/
theorem empty_link_added_counterexample :
    (processCategory parse0 store0 "world" [artNoLink]).1.articles "world" = [] ∧
    (processCategory parse0 store0 "world" [artNoLink]).2 = 0 :=
  ⟨rfl, rfl⟩

/-- C3: after every ingest step each category collection is sorted non-increasing in
the parsed publication timestamp, and the flattened cross-category view is sorted
non-increasing; a missing or unparsable timestamp parses to epoch zero (parsing is
total by construction, it never raises), and such articles appear last: no zero-key
article is ever followed by a positive-key article. -/
theorem ingest_sort_invariant (parse : String → Option Nat) (st : Store) (cat : String)
    (batch : List Article) (cats : List String)
    (h : ∀ c, List.Sorted (tsGe parse) (st.articles c)) :
    (∀ c, List.Sorted (tsGe parse) ((processCategory parse st cat batch).1.articles c)) ∧
    List.Sorted (tsGeP parse)
      (rebuild_all parse (processCategory parse st cat batch).1 cats) ∧
    (∀ c, List.Pairwise (fun a b => sortKey parse a = 0 → sortKey parse b = 0)
      ((processCategory parse st cat batch).1.articles c)) ∧
    List.Pairwise (fun a b => sortKey parse a.2 = 0 → sortKey parse b.2 = 0)
      (rebuild_all parse (processCategory parse st cat batch).1 cats) ∧
    published_ts parse none = 0 ∧
    (∀ s, parse s = none → published_ts parse (some s) = 0) := by
  haveI : IsTotal Article (tsGe parse) := ⟨fun a b => Nat.le_total _ _⟩
  haveI : IsTrans Article (tsGe parse) := ⟨fun _ _ _ h1 h2 => Nat.le_trans h2 h1⟩
  haveI : IsTotal (String × Article) (tsGeP parse) := ⟨fun a b => Nat.le_total _ _⟩
  haveI : IsTrans (String × Article) (tsGeP parse) := ⟨fun _ _ _ h1 h2 => Nat.le_trans h2 h1⟩
  have hcat : ∀ c, List.Sorted (tsGe parse)
      ((processCategory parse st cat batch).1.articles c) := by
    intro c
    by_cases hf : freshOf st.seen_links batch = []
    · rw [processCategory_of_empty parse st cat batch hf]
      exact h c
    · have heq : (processCategory parse st cat batch).1.articles c
          = if c = cat then
              List.insertionSort (tsGe parse) (st.articles c ++ freshOf st.seen_links batch)
            else st.articles c := by
        rw [processCategory_of_nonempty parse st cat batch hf]
        rfl
      rw [heq]
      by_cases hc : c = cat
      · rw [if_pos hc]
        exact List.sorted_insertionSort _ _
      · rw [if_neg hc]
        exact h c
  refine ⟨hcat, List.sorted_insertionSort _ _, ?_, ?_, rfl, ?_⟩
  · intro c
    refine List.Pairwise.imp ?_ (hcat c)
    intro a b hab h0
    rw [tsGe, h0] at hab
    exact Nat.le_zero.mp hab
  · refine List.Pairwise.imp ?_ (List.sorted_insertionSort _ _)
    intro a b hab h0
    rw [tsGeP, h0] at hab
    exact Nat.le_zero.mp hab
  · intro s hs
    simp [published_ts, hs]

theorem ingest_sort_invariant_witness :
    List.Sorted (tsGe parse0)
      ((processCategory parse0 store0 "world" [artA, artB]).1.articles "world") ∧
    published_ts parse0 none = 0 :=
  ⟨(ingest_sort_invariant parse0 store0 "world" [artA, artB] ["world"]
      (fun _ => List.sorted_nil)).1 "world",
   (ingest_sort_invariant parse0 store0 "world" [artA, artB] ["world"]
      (fun _ => List.sorted_nil)).2.2.2.2.1⟩

/-- C8: cache round trip. Writing entries and immediately reading them back with the
default TTL returns the entries unchanged (given that the JSON decoder inverts the
JSON encoder on them); once the TTL window has elapsed the read misses; and a stored
payload that is unreadable or fails to decode is treated exactly as a miss — the
read returns none and, being total, never raises. -/
theorem cache_round_trip (loads : String → Option (List Article))
    (dumps : List Article → String) (path : String → String)
    (st : List (String × cache.CacheFile)) (url : String) (entries : List Article)
    (now now2 ttl : Nat) :
    (loads (dumps entries) = some entries →
      cache.get loads path (cache.put dumps path st url entries now) url
        cache.DEFAULT_TTL now = some entries) ∧
    (cache.DEFAULT_TTL < now2 - now →
      cache.get loads path (cache.put dumps path st url entries now) url
        cache.DEFAULT_TTL now2 = none) ∧
    (∀ f, cache.find (path url) st = some f →
      (f.content = none ∨ ∃ body, f.content = some body ∧ loads body = none) →
      cache.get loads path st url ttl now = none) := by
  refine ⟨?_, ?_, ?_⟩
  · intro hrt
    simp [cache.get, cache.put, cache.find, Nat.sub_self, hrt]
  · intro helapsed
    simp [cache.get, cache.put, cache.find, helapsed]
  · intro f hfind hbad
    rcases hbad with hnone | ⟨body, hbody, hload⟩
    · simp [cache.get, hfind, hnone]
    · simp [cache.get, hfind, hbody, hload]

theorem cache_round_trip_witness :
    cache.get (fun s => if s = "payload" then some [artA] else none) (fun u => u)
      (cache.put (fun _ => "payload") (fun u => u) [] "u" [artA] 5) "u"
      cache.DEFAULT_TTL 5 = some [artA] :=
  (cache_round_trip (fun s => if s = "payload" then some [artA] else none)
    (fun _ => "payload") (fun u => u) [] "u" [artA] 5 5 0).1 (by decide)

theorem dropWhile_ne_spc (l : List Char) (h : spc ∈ l) :
    ∃ u, l.dropWhile (fun c => c != spc) = spc :: u := by
  induction l with
  | nil => cases h
  | cons x xs ih =>
    by_cases hx : x = spc
    · subst hx
      exact ⟨xs, by simp [List.dropWhile_cons]⟩
    · have hmem : spc ∈ xs := by
        rcases List.mem_cons.mp h with h1 | h1
        · exact absurd h1.symm hx
        · exact h1
      obtain ⟨u, hu⟩ := ih hmem
      refine ⟨u, ?_⟩
      rw [List.dropWhile_cons]
      simp [bne_iff_ne, hx, hu]

theorem rsplitHead_spec (l : List Char) (h : spc ∈ l) :
    ∃ t, l = rsplitHead l ++ spc :: t ∧ spc ∉ t := by
  have hrev : spc ∈ l.reverse := List.mem_reverse.mpr h
  obtain ⟨u, hu⟩ := dropWhile_ne_spc l.reverse hrev
  refine ⟨(l.reverse.takeWhile (fun c => c != spc)).reverse, ?_, ?_⟩
  · have hsplit : l.reverse.takeWhile (fun c => c != spc)
        ++ l.reverse.dropWhile (fun c => c != spc) = l.reverse :=
      List.takeWhile_append_dropWhile _ _
    have hrs : rsplitHead l = u.reverse := by
      rw [rsplitHead, if_pos h, hu]
      simp
    rw [hrs]
    have hflip := congrArg List.reverse hsplit
    rw [List.reverse_append, hu, List.reverse_cons, List.reverse_reverse] at hflip
    have hshift : u.reverse ++ [spc]
          ++ (List.takeWhile (fun c => c != spc) l.reverse).reverse
        = u.reverse ++ spc :: (List.takeWhile (fun c => c != spc) l.reverse).reverse := by
      rw [List.append_assoc, List.singleton_append]
    rw [← hshift]
    exact hflip.symm
  · intro hmem
    have hmem2 := List.mem_reverse.mp hmem
    have hp := List.mem_takeWhile_imp hmem2
    simp at hp

/-- C7 (amended): `truncate` returns the text unchanged when its length is within
`max_len`; otherwise it cuts at `max_len - 1` characters and backtracks to the last
space (dropping the trailing word fragment, so the kept text ends right before a
space of the original); if the cut window contains no space the text is hard
truncated at the character limit, ellipsis included. The backtracking boundary is
the space character only, not whitespace in general. -/
theorem truncate_correct (text : List Char) (max_len : Int) :
    ((text.length : Int) ≤ max_len → truncate text max_len = text) ∧
    (max_len < (text.length : Int) →
      (spc ∈ pySliceTo text (max_len - 1) →
        ∃ w t, truncate text max_len = w ++ [hellip] ∧
          pySliceTo text (max_len - 1) = w ++ spc :: t ∧ spc ∉ t) ∧
      (spc ∉ pySliceTo text (max_len - 1) →
        truncate text max_len = pySliceTo text (max_len - 1) ++ [hellip])) := by
  constructor
  · intro hle
    rw [truncate, if_pos hle]
  · intro hgt
    have hnle : ¬ ((text.length : Int) ≤ max_len) := not_le.mpr hgt
    constructor
    · intro hmem
      obtain ⟨t, ht, hnt⟩ := rsplitHead_spec (pySliceTo text (max_len - 1)) hmem
      exact ⟨rsplitHead (pySliceTo text (max_len - 1)), t,
        by rw [truncate, if_neg hnle], ht, hnt⟩
    · intro hnmem
      rw [truncate, if_neg hnle, rsplitHead, if_neg hnmem]

theorem truncate_correct_witness :
    ∃ w t, truncate ("one two three four five six".data) 15 = w ++ [hellip] ∧
      pySliceTo ("one two three four five six".data) (15 - 1) = w ++ spc :: t ∧
      spc ∉ t :=
  ((truncate_correct ("one two three four five six".data) 15).2 (by decide)).1 (by decide)

/-- C7 counterexample: on the ten-character text consisting of "aa", a tab, "bbbb",
a space and "cc", with limit 7, the cut window contains a whitespace character (the
tab) but no space, so the code hard-truncates: the result splits the word "bbbb"
mid-word — the character before the ellipsis is a word character that the original
text continues with another word character — refuting the claim, as stated over
whitespace boundaries, that no word is ever split when the cut window contains a
whitespace boundary. -/
theorem truncate_whitespace_counterexample :
    truncate cexText 7 = cexW ++ [hellip] ∧
    (∃ c ∈ pySliceTo cexText (7 - 1), isWs c = true) ∧
    splitsMidWord cexText (truncate cexText 7) :=
  ⟨by decide, ⟨tabc, by decide, by decide⟩,
   ⟨cexW, by decide, by decide, by decide, by decide⟩⟩

theorem rsplitHead_length_le (l : List Char) : (rsplitHead l).length ≤ l.length := by
  rw [rsplitHead]
  by_cases h : spc ∈ l
  · rw [if_pos h, List.length_reverse, List.length_drop]
    calc (l.reverse.dropWhile (fun c => c != spc)).length - 1
        ≤ (l.reverse.dropWhile (fun c => c != spc)).length := Nat.sub_le _ _
      _ ≤ l.reverse.length := (List.dropWhile_sublist _).length_le
      _ = l.length := List.length_reverse l
  · rw [if_neg h]

/-- C10: for every text and every limit of at least one character, the truncated
output fits within the limit: the appended ellipsis never pushes the length past
`max_len`, in the space-backtracking case and in the hard-cut case alike. -/
theorem truncate_length_le (text : List Char) (max_len : Int) (h : 1 ≤ max_len) :
    ((truncate text max_len).length : Int) ≤ max_len := by
  rw [truncate]
  by_cases hle : (text.length : Int) ≤ max_len
  · rw [if_pos hle]
    exact hle
  · rw [if_neg hle, List.length_append]
    have h1 : (rsplitHead (pySliceTo text (max_len - 1))).length
        ≤ (pySliceTo text (max_len - 1)).length := rsplitHead_length_le _
    have h2 : (pySliceTo text (max_len - 1)).length ≤ (max_len - 1).toNat := by
      rw [pySliceTo, if_neg (by omega : ¬ (max_len - 1 < 0))]
      exact List.length_take_le _ _
    simp only [List.length_cons, List.length_nil]
    omega

theorem truncate_length_le_witness :
    ((truncate ("one two three four five six".data) 15).length : Int) ≤ 15 :=
  truncate_length_le ("one two three four five six".data) 15 (by decide)
